import Mathlib

/-!
Verification of the `simple_rest_rbac` Caddy plugin's authorization core
(marmelab/caddy-rbac-rest-middleware), shallowly embedded in Lean 4.

Go strings are modelled as Lean `String`; the byte-level prefix/suffix
operations of Go's `strings` package are modelled on the character list
`String.data` (equivalent for valid UTF-8, and all patterns here are ASCII).
-/

namespace Rbac

/-- Go `strings.HasPrefix s pre`. -/
def goHasPrefix (s pre : String) : Bool :=
  pre.data.isPrefixOf s.data

/-- Go `strings.HasSuffix s suf`. -/
def goHasSuffix (s suf : String) : Bool :=
  suf.data.isSuffixOf s.data

/-- Go `pattern[:len(pattern)-1]` for a string whose final character is
one byte (always the case in the branch where it is used, since the
string ends with the ASCII `*`). -/
def dropLastChar (s : String) : String :=
  ⟨s.data.dropLast⟩

/-- `ActionType` from role-definitions.go: either a single action string,
a slice of action strings, or neither (both fields nil). -/
structure ActionType where
  single : Option String
  multiple : Option (List String)
deriving DecidableEq, Repr

/-- `Permission` from role-definitions.go: one rule. -/
structure Permission where
  type : String
  action : ActionType
  resource : String
deriving DecidableEq, Repr

/-- `matchWildcard` from can-access.go. -/
def matchWildcard (pattern resource : String) : Bool :=
  if pattern = "*" then true
  else if pattern = resource then true
  else if goHasSuffix pattern "*" then
    goHasPrefix resource (dropLastChar pattern)
  else false

/-- `matchTarget` from can-access.go. -/
def matchTarget (permission : Permission) (resource action : String) : Bool :=
  if ¬ matchWildcard permission.resource resource then false
  else if action = "" ∨ action = "*" then true
  else match permission.action.multiple with
    | some actions => actions.any (fun a => a == "*" || a == action)
    | none =>
      match permission.action.single with
      | some s => s == "*" || s == action
      | none => false

/-- `canAccessWithPermissions` from can-access.go: deny pass first, then
allow pass, default deny. -/
def canAccessWithPermissions (permissions : List Permission)
    (action resource : String) : Bool :=
  if permissions.length = 0 then false
  else if permissions.any
      (fun p => p.type == "deny" && matchTarget p resource action) then false
  else permissions.any
      (fun p => p.type != "deny" && matchTarget p resource action)

/-- Character-level model of Go `strings.Split s sep` for a one-character
separator: `splitChar c "" = [[]]`, and every occurrence of `c` starts a
new piece. -/
def splitChar (c : Char) : List Char → List (List Char)
  | [] => [[]]
  | x :: xs =>
    if x = c then [] :: splitChar c xs
    else
      match splitChar c xs with
      | [] => [[x]]
      | y :: ys => (x :: y) :: ys

/-- Character-level model of Go `strings.Trim s cutset` for the
one-character cutset: drop leading and trailing occurrences of `c`. -/
def trimChar (c : Char) (l : List Char) : List Char :=
  ((l.dropWhile (· = c)).reverse.dropWhile (· = c)).reverse

/-- `extractResource` from the middleware: first segment of the path
after trimming `/` and splitting on `/`, or `""` when absent/empty. -/
def extractResource (path : String) : String :=
  match splitChar '/' (trimChar '/' path.data) with
  | p :: _ => if p ≠ [] then ⟨p⟩ else ""
  | [] => ""

/-- `extractRecordID` from the middleware: second segment of the path
after trimming `/` and splitting on `/`, or `""` when absent/empty. -/
def extractRecordID (path : String) : String :=
  match splitChar '/' (trimChar '/' path.data) with
  | _ :: p :: _ => if p ≠ [] then ⟨p⟩ else ""
  | _ => ""

/-- `getActionFromMethod` from the middleware. -/
def getActionFromMethod (method : String) (hasRecordID : Bool) : String :=
  if method = "GET" then
    if hasRecordID then "show" else "list"
  else if method = "POST" then "create"
  else if method = "PUT" ∨ method = "PATCH" then "edit"
  else if method = "DELETE" then "delete"
  else ""

/-- `getActionFromRequest` from the middleware: the same method switch,
with the has-record-id flag computed from the request path. -/
def getActionFromRequest (method path : String) : String :=
  let recordID := extractRecordID path
  let hasRecordID := recordID != ""
  if method = "GET" then
    if hasRecordID then "show" else "list"
  else if method = "POST" then "create"
  else if method = "PUT" ∨ method = "PATCH" then "edit"
  else if method = "DELETE" then "delete"
  else ""

/-- The observable outcome of one `ServeHTTP` call. -/
inductive ServeOutcome where
  | passThrough
  | methodNotAllowed
  | roleNotDefined
  | roleNotFound
  | forbidden
  | allowed
deriving DecidableEq, Repr

/-- The pure decision skeleton of `Middleware.ServeHTTP`: the role table
is the read-only snapshot, `resolvedRole` the role string after
placeholder resolution. -/
def serveDecision (roles : List (String × List Permission))
    (resolvedRole method path : String) : ServeOutcome :=
  let resource := extractResource path
  if resource = "" then .passThrough
  else
    let action := getActionFromRequest method path
    if action = "" then .methodNotAllowed
    else if resolvedRole = "" then .roleNotDefined
    else
      match roles.lookup resolvedRole with
      | none => .roleNotFound
      | some permissions =>
        if canAccessWithPermissions permissions action resource then .allowed
        else .forbidden

/-- Segments of a path per the spec's words: split on `/`, then discard
the empty segments produced by leading/trailing separators. -/
def specSegments (path : String) : List (List Char) :=
  (((splitChar '/' path.data).dropWhile (· = [])).reverse.dropWhile (· = [])).reverse

/-- Resource per the spec's words: the first remaining segment, or empty
when no segment remains. -/
def specResource (path : String) : String :=
  match specSegments path with
  | s :: _ => ⟨s⟩
  | [] => ""

/-- Identifier per the spec's words: the second segment when present and
non-empty, otherwise none (empty string). -/
def specRecordID (path : String) : String :=
  match specSegments path with
  | _ :: s :: _ => if s ≠ [] then ⟨s⟩ else ""
  | _ => ""

/-- The set of action identifiers a rule's action field denotes, in the
order `matchTarget` consults them: the `Multiple` slice when non-nil,
else the `Single` string when non-nil, else nothing. -/
def actionSet (p : Permission) : List String :=
  match p.action.multiple with
  | some l => l
  | none =>
    match p.action.single with
    | some s => [s]
    | none => []

/-- A JSON value, as produced by Go's `encoding/json` lexer; role parsing
consumes such values. -/
inductive JsonValue where
  | null
  | bool (b : Bool)
  | num (n : Int)
  | str (s : String)
  | arr (elems : List JsonValue)
  | obj (fields : List (String × JsonValue))

/-- Go's `perm["key"].(string)` type assertion: the field's value when it
is present and a string. -/
def getString (fields : List (String × JsonValue)) (key : String) : Option String :=
  match fields.lookup key with
  | some (.str s) => some s
  | _ => none

/-- The `action` field handling of `UnmarshalJSON`: a JSON string becomes
`Single`; a JSON array becomes `Multiple`, keeping only its string items
(Go's appended slice stays nil when no string item exists, hence `none`
for an empty or all-non-string array); anything else leaves both nil. -/
def parseActionField (fields : List (String × JsonValue)) : ActionType :=
  match fields.lookup "action" with
  | some (.str s) => ⟨some s, none⟩
  | some (.arr items) =>
    let actions := items.filterMap fun item =>
      match item with
      | .str s => some s
      | _ => none
    ⟨none, if actions = [] then none else some actions⟩
  | _ => ⟨none, none⟩

/-- One rule object of the raw decoded map, converted to a `Permission`
as in `UnmarshalJSON`: absent or non-string `type`/`resource` fields
leave the Go zero value `""`. -/
def parsePermission (fields : List (String × JsonValue)) : Permission :=
  { type := (getString fields "type").getD ""
    action := parseActionField fields
    resource := (getString fields "resource").getD "" }

/-- Decoding a role's rule list into `[]map[string]interface{}`: every
element must be a JSON object, or JSON `null`, which `encoding/json`
accepts into a `map[string]interface{}` as nil (no fields, so the rule
becomes a zero-valued `Permission`). -/
def decodePerms : List JsonValue → Option (List (List (String × JsonValue)))
  | [] => some []
  | e :: es =>
    match e with
    | .obj fields => (decodePerms es).map (fields :: ·)
    | .null => (decodePerms es).map ([] :: ·)
    | _ => none

/-- Decoding the role map's entries: every role's value must be a JSON
array of rule objects, or JSON `null`, which `encoding/json` accepts
into a `[]map[string]interface{}` as the nil slice (no rules). -/
def decodeRoles :
    List (String × JsonValue) → Option (List (String × List (List (String × JsonValue))))
  | [] => some []
  | (name, v) :: rest =>
    match v with
    | .arr elems =>
      match decodePerms elems with
      | some objs => (decodeRoles rest).map ((name, objs) :: ·)
      | none => none
    | .null => (decodeRoles rest).map ((name, []) :: ·)
    | _ => none

/-- Go `json.Unmarshal(data, &raw)` for
`raw : map[string][]map[string]interface{}`, on an already-lexed value:
fails exactly when the value does not have the expected shape. A
top-level JSON `null` is accepted as the nil map (no roles). -/
def decodeRaw (j : JsonValue) : Option (List (String × List (List (String × JsonValue)))) :=
  match j with
  | .obj roles => decodeRoles roles
  | .null => some []
  | _ => none

/-- `RoleDefinitions.UnmarshalJSON` from role-definitions.go, on an
already-lexed JSON value: decode the raw shape, then convert every rule
object with `parsePermission`. -/
def unmarshalRoleDefinitions (j : JsonValue) : Option (List (String × List Permission)) :=
  (decodeRaw j).map (List.map fun rp => (rp.1, rp.2.map parsePermission))

/-- A decodable rule element: a JSON object, or `null` (decoded by Go as
a nil `map[string]interface{}`). -/
def ruleObjShape (e : JsonValue) : Prop :=
  e = JsonValue.null ∨ ∃ fields, e = JsonValue.obj fields

/-- A decodable role value: a JSON array of decodable rule elements, or
`null` (decoded by Go as a nil `[]map[string]interface{}`). -/
def roleValueShape (v : JsonValue) : Prop :=
  v = JsonValue.null ∨
    ∃ elems, v = JsonValue.arr elems ∧ ∀ e ∈ elems, ruleObjShape e

/-- The expected shape, in the spec's words: a map from role names to
lists of rule objects — including the JSON `null` forms that
`encoding/json` accepts for the map, a slice, or an object. -/
def expectedShape : JsonValue → Prop
  | .obj roles => ∀ rv ∈ roles, roleValueShape rv.2
  | .null => True
  | _ => False

/-! ## Helper lemmas -/

/-- The decision characterized: access is granted exactly when some
non-deny rule matches and no deny rule matches. -/
theorem canAccess_iff (rules : List Permission) (action resource : String) :
    canAccessWithPermissions rules action resource = true ↔
      ((∃ p ∈ rules, p.type ≠ "deny" ∧ matchTarget p resource action = true) ∧
        ∀ p ∈ rules, p.type = "deny" → matchTarget p resource action = false) := by
  have hexd : (rules.any fun q => q.type == "deny" && matchTarget q resource action) = true ↔
      ∃ p ∈ rules, p.type = "deny" ∧ matchTarget p resource action = true := by
    simp [List.any_eq_true]
  have hexa : (rules.any fun q => q.type != "deny" && matchTarget q resource action) = true ↔
      ∃ p ∈ rules, p.type ≠ "deny" ∧ matchTarget p resource action = true := by
    simp [List.any_eq_true]
  by_cases h0 : rules.length = 0
  · rw [List.length_eq_zero] at h0
    subst h0
    simp [canAccessWithPermissions]
  · cases hd : (rules.any fun q => q.type == "deny" && matchTarget q resource action) with
    | true =>
      have hcan : canAccessWithPermissions rules action resource = false := by
        unfold canAccessWithPermissions
        rw [if_neg h0, if_pos hd]
      rw [hcan]
      simp only [Bool.false_eq_true, false_iff]
      rintro ⟨-, hnd⟩
      obtain ⟨p, hp, hty, hm⟩ := hexd.mp hd
      rw [hnd p hp hty] at hm
      exact absurd hm (by simp)
    | false =>
      have hcan : canAccessWithPermissions rules action resource =
          (rules.any fun q => q.type != "deny" && matchTarget q resource action) := by
        unfold canAccessWithPermissions
        rw [if_neg h0, if_neg (by simp [hd])]
      rw [hcan, hexa]
      constructor
      · intro hex
        refine ⟨hex, fun p hp hty => ?_⟩
        have hnp := (List.any_eq_false.mp hd) p hp
        simp only [Bool.and_eq_true, beq_iff_eq, not_and] at hnp
        by_contra hm
        rw [Bool.not_eq_false] at hm
        exact hnp hty hm
      · rintro ⟨hex, -⟩
        exact hex

/-- `List.any` is invariant under permutation. -/
theorem any_eq_of_perm {α : Type} {l₁ l₂ : List α} (h : l₁.Perm l₂) (f : α → Bool) :
    l₁.any f = l₂.any f := by
  cases h₂ : l₂.any f
  · rw [List.any_eq_false] at h₂ ⊢
    exact fun a ha => h₂ a (h.mem_iff.mp ha)
  · rw [List.any_eq_true] at h₂ ⊢
    obtain ⟨a, ha, hf⟩ := h₂
    exact ⟨a, h.mem_iff.mpr ha, hf⟩

/-- A string ends with the wildcard marker exactly when its character
list has `*` as final element. -/
theorem goHasSuffix_star_iff (pattern : String) :
    goHasSuffix pattern "*" = true ↔ ∃ u, pattern.data = u ++ ['*'] := by
  unfold goHasSuffix
  rw [List.isSuffixOf_iff_suffix]
  constructor
  · rintro ⟨u, hu⟩
    exact ⟨u, hu.symm⟩
  · rintro ⟨u, hu⟩
    exact ⟨u, hu.symm⟩

/-- Go's `strings.HasPrefix`, characterized: the candidate prefix's
characters are literally an initial segment. -/
theorem goHasPrefix_iff (s pre : String) :
    goHasPrefix s pre = true ↔ ∃ t, s.data = pre.data ++ t := by
  unfold goHasPrefix
  rw [List.isPrefixOf_iff_prefix]
  constructor
  · rintro ⟨t, ht⟩
    exact ⟨t, ht.symm⟩
  · rintro ⟨t, ht⟩
    exact ⟨t, ht.symm⟩

theorem splitChar_nil (c : Char) : splitChar c [] = [[]] := rfl

theorem splitChar_cons (c x : Char) (xs : List Char) :
    splitChar c (x :: xs) =
      if x = c then [] :: splitChar c xs
      else
        match splitChar c xs with
        | [] => [[x]]
        | y :: ys => (x :: y) :: ys := by
  rw [splitChar.eq_def]

theorem splitChar_cons_self (c : Char) (xs : List Char) :
    splitChar c (c :: xs) = [] :: splitChar c xs := by
  rw [splitChar_cons, if_pos rfl]

theorem splitChar_ne_nil (c : Char) (l : List Char) : splitChar c l ≠ [] := by
  cases l with
  | nil => simp [splitChar_nil]
  | cons x xs =>
    rw [splitChar_cons]
    by_cases h : x = c
    · simp [h]
    · rw [if_neg h]
      cases hs : splitChar c xs <;> simp

theorem splitChar_cons_of_ne (c x : Char) (xs : List Char) (h : ¬ x = c)
    {y : List Char} {ys : List (List Char)} (hs : splitChar c xs = y :: ys) :
    splitChar c (x :: xs) = (x :: y) :: ys := by
  rw [splitChar_cons, if_neg h, hs]

/-- The first piece of a split fails the splitting predicate only when it
comes from a leading separator: dropping leading separators first and
then splitting agrees with splitting and then dropping leading empty
pieces, except that an all-separator input leaves no piece at all. -/
theorem dropWhile_splitChar (c : Char) (l : List Char) :
    (splitChar c l).dropWhile (· = []) =
      if l.dropWhile (· = c) = [] then []
      else splitChar c (l.dropWhile (· = c)) := by
  induction l with
  | nil => simp [splitChar]
  | cons x xs ih =>
    by_cases h : x = c
    · subst h
      rw [splitChar_cons_self, List.dropWhile_cons, List.dropWhile_cons]
      simpa using ih
    · obtain ⟨y, ys, hs⟩ : ∃ y ys, splitChar c xs = y :: ys := by
        cases h' : splitChar c xs with
        | nil => exact absurd h' (splitChar_ne_nil c xs)
        | cons y ys => exact ⟨y, ys, rfl⟩
      rw [splitChar_cons_of_ne c x xs h hs, List.dropWhile_cons, List.dropWhile_cons]
      simp [h, splitChar_cons_of_ne c x xs h hs]

theorem splitChar_append_single (c : Char) (u : List Char) :
    splitChar c (u ++ [c]) = splitChar c u ++ [[]] := by
  induction u with
  | nil =>
    rw [List.nil_append, splitChar_nil]
    exact splitChar_cons_self c []
  | cons x xs ih =>
    by_cases h : x = c
    · subst h
      rw [List.cons_append, splitChar_cons_self, splitChar_cons_self, ih]
      rfl
    · obtain ⟨y, ys, hs⟩ : ∃ y ys, splitChar c xs = y :: ys := by
        cases h' : splitChar c xs with
        | nil => exact absurd h' (splitChar_ne_nil c xs)
        | cons y ys => exact ⟨y, ys, rfl⟩
      have hs2 : splitChar c (xs ++ [c]) = y :: (ys ++ [[]]) := by
        rw [ih, hs]
        rfl
      rw [List.cons_append, splitChar_cons_of_ne c x _ h hs2,
        splitChar_cons_of_ne c x xs h hs]
      rfl

theorem splitChar_append_replicate (c : Char) (u : List Char) (k : ℕ) :
    splitChar c (u ++ List.replicate k c) = splitChar c u ++ List.replicate k [] := by
  induction k generalizing u with
  | zero => simp
  | succ n ih =>
    rw [List.replicate_succ, List.append_cons, ih (u ++ [c]), splitChar_append_single,
      List.replicate_succ]
    simp

theorem dropWhile_cons_prop {α : Type} (p : α → Bool) (l : List α) (x : α) (xs : List α)
    (h : l.dropWhile p = x :: xs) : p x = false := by
  induction l with
  | nil => simp at h
  | cons a as ih =>
    rw [List.dropWhile_cons] at h
    by_cases hp : p a = true
    · rw [if_pos hp] at h
      exact ih h
    · rw [if_neg hp] at h
      injection h with h1 h2
      subst h1
      exact Bool.not_eq_true (p a) |>.mp hp

theorem takeWhile_eq_replicate (c : Char) (l : List Char) :
    l.takeWhile (· = c) = List.replicate (l.takeWhile (· = c)).length c := by
  rw [List.eq_replicate_iff]
  exact ⟨rfl, fun b hb => by simpa using List.mem_takeWhile_imp hb⟩

/-- Every list splits as its separator-free trailing-trimmed part
followed by a run of separators. -/
theorem eq_append_replicate (c : Char) (m : List Char) :
    m = (m.reverse.dropWhile (· = c)).reverse ++
        List.replicate (m.reverse.takeWhile (· = c)).length c := by
  have h1 : m.reverse.takeWhile (· = c) ++ m.reverse.dropWhile (· = c) = m.reverse :=
    List.takeWhile_append_dropWhile _ _
  have h2 := congrArg List.reverse h1
  rw [List.reverse_append, List.reverse_reverse] at h2
  have h3 := congrArg List.reverse (takeWhile_eq_replicate c m.reverse)
  rw [List.reverse_replicate] at h3
  conv_lhs => rw [← h2]
  rw [h3]

theorem dropWhile_replicate_append {α : Type} (p : α → Bool) (a : α) (hp : p a = true)
    (k : ℕ) (t : List α) :
    (List.replicate k a ++ t).dropWhile p = t.dropWhile p := by
  induction k with
  | zero => simp
  | succ n ih =>
    rw [List.replicate_succ, List.cons_append, List.dropWhile_cons, if_pos hp]
    exact ih

/-- Splitting a list that ends in a non-separator yields a non-empty
final piece. -/
theorem splitChar_concat_ne (c x : Char) (h : ¬ x = c) (v : List Char) :
    ∃ S piece, splitChar c (v ++ [x]) = S ++ [piece] ∧ piece ≠ [] := by
  induction v with
  | nil =>
    refine ⟨[], [x], ?_, by simp⟩
    rw [List.nil_append, splitChar_cons_of_ne c x [] h (splitChar_nil c)]
    rfl
  | cons z zs ih =>
    obtain ⟨S, piece, hsp, hne⟩ := ih
    by_cases hz : z = c
    · subst hz
      refine ⟨[] :: S, piece, ?_, hne⟩
      rw [List.cons_append, splitChar_cons_self, hsp]
      rfl
    · rcases S with _ | ⟨s, S'⟩
      · have hsp' : splitChar c (zs ++ [x]) = piece :: [] := by
          rw [hsp]
          rfl
        refine ⟨[], z :: piece, ?_, by simp⟩
        rw [List.cons_append, splitChar_cons_of_ne c z _ hz hsp']
        rfl
      · have hsp' : splitChar c (zs ++ [x]) = s :: (S' ++ [piece]) := by
          rw [hsp]
          rfl
        refine ⟨(z :: s) :: S', piece, ?_, hne⟩
        rw [List.cons_append, splitChar_cons_of_ne c z _ hz hsp']
        rfl

/-- Core of the path-convention refinement: when the input has a
non-separator character, dropping trailing empty pieces of a
leading-clean split agrees with trimming trailing separators before
splitting. -/
theorem edgeTrim_core (c : Char) (D : List Char)
    (hex : ∃ ch ∈ D, ¬ ch = c) :
    ((splitChar c D).reverse.dropWhile (· = [])).reverse
      = splitChar c ((D.reverse.dropWhile (· = c)).reverse) := by
  have hDrev : D.reverse.dropWhile (· = c) ≠ [] := by
    intro h0
    rw [List.dropWhile_eq_nil_iff] at h0
    obtain ⟨ch, hch, hne⟩ := hex
    exact hne (by simpa using h0 ch (List.mem_reverse.mpr hch))
  obtain ⟨x, xs, hx⟩ := List.exists_cons_of_ne_nil hDrev
  have hxc : ¬ x = c := by
    have := dropWhile_cons_prop (· = c) D.reverse x xs hx
    simpa using this
  have hw : (D.reverse.dropWhile (· = c)).reverse = xs.reverse ++ [x] := by
    rw [hx, List.reverse_cons]
  obtain ⟨S, piece, hsp, hpne⟩ := splitChar_concat_ne c x hxc xs.reverse
  have hdec : D = (xs.reverse ++ [x]) ++
      List.replicate (D.reverse.takeWhile (· = c)).length c := by
    conv_lhs => rw [eq_append_replicate c D]
    rw [hw]
  rw [hw]
  conv_lhs => rw [hdec]
  rw [splitChar_append_replicate, hsp]
  simp only [List.reverse_append, List.reverse_replicate]
  rw [dropWhile_replicate_append (fun l => decide (l = ([] : List Char))) [] (by simp)]
  have hrev : ([piece].reverse ++ S.reverse) = piece :: S.reverse := by simp
  rw [hrev, List.dropWhile_cons, if_neg (by simpa using hpne)]
  simp

/-! ## Claims -/

/-- C1: `canAccessWithPermissions rules action resource` is true exactly
when some rule of type other than "deny" matches the (action, resource)
pair and no rule of type "deny" matches it; in particular the empty rule
list denies, and so does a rule list in which no rule matches at all
(default deny). -/
theorem C1_canAccess_default_deny (rules : List Permission) (action resource : String) :
    (canAccessWithPermissions rules action resource = true ↔
      ((∃ p ∈ rules, p.type ≠ "deny" ∧ matchTarget p resource action = true) ∧
        ∀ p ∈ rules, p.type = "deny" → matchTarget p resource action = false)) ∧
    (rules = [] → canAccessWithPermissions rules action resource = false) ∧
    ((∀ p ∈ rules, matchTarget p resource action = false) →
      canAccessWithPermissions rules action resource = false) := by
  refine ⟨canAccess_iff rules action resource, ?_, ?_⟩
  · rintro rfl
    rfl
  · intro hall
    cases h : canAccessWithPermissions rules action resource
    · rfl
    · obtain ⟨⟨p, hp, _, hm⟩, -⟩ := (canAccess_iff rules action resource).mp h
      rw [hall p hp] at hm
      exact absurd hm (by simp)

/-- Witness for C1 at a concrete input: the empty rule list denies. -/
theorem C1_witness : canAccessWithPermissions [] "read" "posts" = false :=
  (C1_canAccess_default_deny [] "read" "posts").2.1 rfl

/-- C2: the decision is invariant under any permutation of the rule
list. -/
theorem C2_order_invariance (rules rules' : List Permission)
    (h : rules.Perm rules') (action resource : String) :
    canAccessWithPermissions rules action resource =
      canAccessWithPermissions rules' action resource := by
  unfold canAccessWithPermissions
  rw [any_eq_of_perm h, any_eq_of_perm h, h.length_eq]

/-- Witness for C2 at a concrete input: swapping a deny and an allow rule
does not change the decision. -/
theorem C2_witness :
    canAccessWithPermissions
        [⟨"deny", ⟨some "read", none⟩, "posts.views"⟩,
          ⟨"allow", ⟨none, some ["list", "show"]⟩, "posts"⟩] "list" "posts" =
      canAccessWithPermissions
        [⟨"allow", ⟨none, some ["list", "show"]⟩, "posts"⟩,
          ⟨"deny", ⟨some "read", none⟩, "posts.views"⟩] "list" "posts" :=
  C2_order_invariance _ _
    (List.Perm.swap ⟨"allow", ⟨none, some ["list", "show"]⟩, "posts"⟩
      ⟨"deny", ⟨some "read", none⟩, "posts.views"⟩ []) "list" "posts"

/-- C3: `matchWildcard pattern resource` is true exactly when the
pattern is `*`, or equals the resource, or ends in `*` and the resource
starts with the pattern minus the trailing `*`; with the spec's concrete
instances. -/
theorem C3_matchWildcard_cases (pattern resource : String) :
    (matchWildcard pattern resource = true ↔
      (pattern = "*" ∨ pattern = resource ∨
        ((∃ u, pattern.data = u ++ ['*']) ∧
          ∃ t, resource.data = pattern.data.dropLast ++ t))) ∧
    matchWildcard "posts.*" "posts.views" = true ∧
    matchWildcard "posts.*" "posts" = false ∧
    matchWildcard "posts.*" "comments.views" = false ∧
    matchWildcard "foo" "foobar" = false := by
  refine ⟨?_, by decide, by decide, by decide, by decide⟩
  unfold matchWildcard
  by_cases h1 : pattern = "*"
  · simp [h1]
  · rw [if_neg h1]
    by_cases h2 : pattern = resource
    · simp [h2]
    · rw [if_neg h2]
      by_cases h3 : goHasSuffix pattern "*" = true
      · rw [if_pos h3, goHasPrefix_iff]
        have hdl : (dropLastChar pattern).data = pattern.data.dropLast := rfl
        rw [hdl]
        simp only [h1, h2, false_or]
        constructor
        · intro ht
          exact ⟨(goHasSuffix_star_iff pattern).mp h3, ht⟩
        · rintro ⟨-, ht⟩
          exact ht
      · rw [if_neg h3]
        simp only [h1, h2, false_or, Bool.false_eq_true, false_iff]
        rintro ⟨hsuf, -⟩
        exact h3 ((goHasSuffix_star_iff pattern).mpr hsuf)

/-- C10: a pattern that is not `*` and does not end in `*` matches only
itself, even when it contains `*` elsewhere; and in a pattern ending in
`*`, the remaining prefix is matched literally, character by character. -/
theorem C10_only_trailing_wildcard (pattern resource : String) :
    (pattern ≠ "*" → goHasSuffix pattern "*" = false →
      (matchWildcard pattern resource = true ↔ pattern = resource)) ∧
    (goHasSuffix pattern "*" = true →
      (matchWildcard pattern resource = true ↔
        ∃ t, resource.data = pattern.data.dropLast ++ t)) ∧
    matchWildcard "*.views" "posts.views" = false ∧
    matchWildcard "*.views" "*.views" = true ∧
    matchWildcard "a*b*" "a*bcd" = true ∧
    matchWildcard "a*b*" "axb" = false := by
  refine ⟨?_, ?_, by decide, by decide, by decide, by decide⟩
  · intro h1 h3
    unfold matchWildcard
    rw [if_neg h1]
    by_cases h2 : pattern = resource
    · simp [h2]
    · rw [if_neg h2, if_neg (by simp [h3])]
      simp [h2]
  · intro hsuf
    by_cases h1 : pattern = "*"
    · subst h1
      have hLHS : matchWildcard "*" resource = true := rfl
      rw [hLHS]
      have hdl : ("*" : String).data.dropLast = [] := rfl
      rw [hdl]
      simp
    · by_cases h2 : pattern = resource
      · unfold matchWildcard
        rw [if_neg h1, if_pos h2]
        obtain ⟨u, hu⟩ := (goHasSuffix_star_iff pattern).mp hsuf
        have hdl : pattern.data.dropLast = u := by
          rw [hu]
          exact List.dropLast_concat
        simp only [true_iff, hdl]
        exact ⟨['*'], by rw [← h2, hu]⟩
      · unfold matchWildcard
        rw [if_neg h1, if_neg h2, if_pos hsuf, goHasPrefix_iff]
        have hdl : (dropLastChar pattern).data = pattern.data.dropLast := rfl
        rw [hdl]

/-- Witness for C10 at a concrete input: a non-trailing `*` is a literal
character, so the pattern `*.views` matches only the resource
`*.views`. -/
theorem C10_witness : matchWildcard "*.views" "*.views" = true :=
  ((C10_only_trailing_wildcard "*.views" "*.views").1 (by decide) (by decide)).mpr rfl

/-- C4: for a rule whose resource pattern matches the requested
resource, an empty or `*` requested action matches unconditionally;
otherwise the rule matches exactly when its action set contains `*` or
the requested action; with the spec's concrete action-set instances. -/
theorem C4_action_matching (p : Permission) (action resource : String)
    (hres : matchWildcard p.resource resource = true) :
    ((action = "" ∨ action = "*") → matchTarget p resource action = true) ∧
    (action ≠ "" → action ≠ "*" →
      (matchTarget p resource action = true ↔
        "*" ∈ actionSet p ∨ action ∈ actionSet p)) ∧
    (matchTarget ⟨p.type, ⟨none, some ["list", "show"]⟩, p.resource⟩ resource "list" = true ∧
      matchTarget ⟨p.type, ⟨none, some ["list", "show"]⟩, p.resource⟩ resource "show" = true ∧
      matchTarget ⟨p.type, ⟨none, some ["list", "show"]⟩, p.resource⟩ resource "create" = false) ∧
    (∀ a, matchTarget ⟨p.type, ⟨none, some ["*"]⟩, p.resource⟩ resource a = true) := by
  have hres' : ¬ ¬ matchWildcard p.resource resource = true := by simp [hres]
  refine ⟨?_, ?_, ⟨?_, ?_, ?_⟩, ?_⟩
  · intro ha
    unfold matchTarget
    rw [if_neg hres', if_pos ha]
  · intro h1 h2
    unfold matchTarget
    rw [if_neg hres', if_neg (by simp [h1, h2] : ¬(action = "" ∨ action = "*"))]
    unfold actionSet
    cases hm : p.action.multiple with
    | some l =>
      simp only [List.any_eq_true, Bool.or_eq_true, beq_iff_eq]
      constructor
      · rintro ⟨a, ha, h | h⟩
        · exact Or.inl (h ▸ ha)
        · exact Or.inr (h ▸ ha)
      · rintro (h | h)
        · exact ⟨"*", h, Or.inl rfl⟩
        · exact ⟨action, h, Or.inr rfl⟩
    | none =>
      cases hs : p.action.single with
      | some s =>
        simp only [Bool.or_eq_true, beq_iff_eq, List.mem_singleton]
        constructor
        · rintro (h | h)
          · exact Or.inl h.symm
          · exact Or.inr h.symm
        · rintro (h | h)
          · exact Or.inl h.symm
          · exact Or.inr h.symm
      | none =>
        simp
  · unfold matchTarget
    rw [if_neg hres']
    rfl
  · unfold matchTarget
    rw [if_neg hres']
    rfl
  · unfold matchTarget
    rw [if_neg hres']
    rfl
  · intro a
    unfold matchTarget
    rw [if_neg hres']
    by_cases ha : a = "" ∨ a = "*"
    · rw [if_pos ha]
    · rw [if_neg ha]
      simp

/-- Witness for C4 at a concrete input: the action set
`["list", "show"]` does not match the action `"create"`. -/
theorem C4_witness :
    matchTarget ⟨"allow", ⟨none, some ["list", "show"]⟩, "posts"⟩ "posts" "create" = false :=
  (C4_action_matching ⟨"allow", ⟨none, some ["list", "show"]⟩, "posts"⟩
    "create" "posts" (by decide)).2.2.1.2.2

/-- C5 as stated is false on the code: a deny rule whose action field
was never parsed (both fields nil) does not match the non-empty,
non-wildcard action "read", so a later allow rule grants access. -/
theorem C5_counterexample :
    canAccessWithPermissions
      [⟨"deny", ⟨none, none⟩, "posts"⟩, ⟨"allow", ⟨some "read", none⟩, "posts"⟩]
      "read" "posts" = true := by decide

/-- C5, amended: a deny rule with an empty/omitted action field matches
only requests whose requested action is empty or the wildcard — for
those it forces denial on its matched resource — while for any
non-empty, non-wildcard requested action it matches nothing and so does
not shadow allow rules. -/
theorem C5_amended_empty_action_deny (rules : List Permission) (d : Permission)
    (hd : d ∈ rules) (hty : d.type = "deny")
    (hsingle : d.action.single = none) (hmult : d.action.multiple = none)
    (resource : String) (hres : matchWildcard d.resource resource = true)
    (action : String) :
    ((action = "" ∨ action = "*") →
      canAccessWithPermissions rules action resource = false) ∧
    (¬(action = "" ∨ action = "*") → matchTarget d resource action = false) := by
  constructor
  · intro ha
    cases h : canAccessWithPermissions rules action resource
    · rfl
    · obtain ⟨-, hnd⟩ := (canAccess_iff rules action resource).mp h
      have hmt : matchTarget d resource action = true := by
        unfold matchTarget
        rw [if_neg (by simp [hres]), if_pos ha]
      rw [hnd d hd hty] at hmt
      exact absurd hmt (by simp)
  · intro ha
    unfold matchTarget
    rw [if_neg (by simp [hres]), if_neg ha, hmult, hsingle]

/-- Witness for C5's amended statement at a concrete input: with an
empty requested action, the action-less deny rule forces denial. -/
theorem C5_witness :
    canAccessWithPermissions
      [⟨"deny", ⟨none, none⟩, "posts"⟩, ⟨"allow", ⟨some "read", none⟩, "posts"⟩]
      "" "posts" = false :=
  (C5_amended_empty_action_deny
    [⟨"deny", ⟨none, none⟩, "posts"⟩, ⟨"allow", ⟨some "read", none⟩, "posts"⟩]
    ⟨"deny", ⟨none, none⟩, "posts"⟩ (by decide) rfl rfl rfl
    "posts" (by decide) "").1 (Or.inl rfl)

/-- C6: the concrete scenario of the spec's section 8. -/
theorem C6_scenario_section8 :
    canAccessWithPermissions
      [⟨"allow", ⟨none, some ["list", "show"]⟩, "posts"⟩,
        ⟨"deny", ⟨some "read", none⟩, "posts.views"⟩] "read" "posts.views" = false ∧
    canAccessWithPermissions
      [⟨"allow", ⟨none, some ["list", "show"]⟩, "posts"⟩,
        ⟨"deny", ⟨some "read", none⟩, "posts.views"⟩] "list" "posts" = true ∧
    canAccessWithPermissions
      [⟨"allow", ⟨none, some ["list", "show"]⟩, "posts"⟩,
        ⟨"deny", ⟨some "read", none⟩, "posts.views"⟩] "delete" "posts" = false := by
  decide

/-- C7: the action resolver's method table, the agreement of the two
resolver variants, and the caller's rejection of unsupported methods
without consulting the decision engine. -/
theorem C7_action_resolver :
    getActionFromMethod "GET" false = "list" ∧
    getActionFromMethod "GET" true = "show" ∧
    (∀ b, getActionFromMethod "POST" b = "create") ∧
    (∀ b, getActionFromMethod "PUT" b = "edit") ∧
    (∀ b, getActionFromMethod "PATCH" b = "edit") ∧
    (∀ b, getActionFromMethod "DELETE" b = "delete") ∧
    (∀ method b, method ≠ "GET" → method ≠ "POST" → method ≠ "PUT" →
      method ≠ "PATCH" → method ≠ "DELETE" → getActionFromMethod method b = "") ∧
    (∀ method path, getActionFromRequest method path =
      getActionFromMethod method (extractRecordID path != "")) ∧
    (∀ roles resolvedRole method path,
      extractResource path ≠ "" → getActionFromRequest method path = "" →
      serveDecision roles resolvedRole method path = ServeOutcome.methodNotAllowed) := by
  refine ⟨rfl, rfl, fun b => rfl, fun b => rfl, fun b => rfl, fun b => rfl, ?_,
    fun method path => rfl, ?_⟩
  · intro method b h1 h2 h3 h4 h5
    unfold getActionFromMethod
    rw [if_neg h1, if_neg h2,
      if_neg (by simp [h3, h4] : ¬(method = "PUT" ∨ method = "PATCH")), if_neg h5]
  · intro roles resolvedRole method path hres hact
    unfold serveDecision
    rw [if_neg hres, if_pos hact]

/-- Witness for C7 at a concrete input: HEAD resolves to the empty
action and the middleware answers method-not-allowed. -/
theorem C7_witness :
    getActionFromMethod "HEAD" true = "" ∧
    serveDecision [] "accountant" "HEAD" "/posts" = ServeOutcome.methodNotAllowed :=
  ⟨C7_action_resolver.2.2.2.2.2.2.1 "HEAD" true
      (by decide) (by decide) (by decide) (by decide) (by decide),
    C7_action_resolver.2.2.2.2.2.2.2.2 [] "accountant" "HEAD" "/posts"
      (by decide) (by decide)⟩

/-- C8: the middleware's path extraction agrees, for every path, with
the spec's convention — split on `/`, discard empty segments from
leading/trailing separators, first segment is the resource, second
(when present and non-empty) the identifier, the rest ignored — with the
spec's concrete instances, and a path with no resolvable segment makes
the middleware pass the request through unchecked. -/
theorem C8_path_convention :
    (∀ path, extractResource path = specResource path) ∧
    (∀ path, extractRecordID path = specRecordID path) ∧
    extractResource "/posts/1/comments" = "posts" ∧
    extractRecordID "/posts/1/comments" = "1" ∧
    extractResource "/" = "" ∧
    extractResource "" = "" ∧
    (∀ roles resolvedRole method path,
      extractResource path = "" →
      serveDecision roles resolvedRole method path = ServeOutcome.passThrough) := by
  have key : ∀ path : String,
      specSegments path = splitChar '/' (trimChar '/' path.data) ∨
      (specSegments path = [] ∧ trimChar '/' path.data = []) := by
    intro path
    by_cases h : path.data.dropWhile (· = '/') = []
    · right
      constructor
      · unfold specSegments
        rw [dropWhile_splitChar, if_pos h]
        rfl
      · unfold trimChar
        rw [h]
        rfl
    · left
      unfold specSegments trimChar
      rw [dropWhile_splitChar, if_neg h]
      obtain ⟨x, xs, hx⟩ := List.exists_cons_of_ne_nil h
      refine edgeTrim_core '/' _ ⟨x, ?_, ?_⟩
      · rw [hx]
        exact List.mem_cons_self x xs
      · simpa using dropWhile_cons_prop (· = '/') path.data x xs hx
  have hres : ∀ path, extractResource path = specResource path := by
    intro path
    unfold extractResource specResource
    rcases key path with heq | ⟨heq, htr⟩
    · rw [heq]
      cases hS : splitChar '/' (trimChar '/' path.data) with
      | nil => rfl
      | cons p rest =>
        show (if p ≠ [] then (⟨p⟩ : String) else "") = ⟨p⟩
        by_cases hp : p = []
        · subst hp
          rw [if_neg (by simp)]
        · rw [if_pos hp]
    · rw [heq, htr, splitChar_nil]
      rfl
  have hrec : ∀ path, extractRecordID path = specRecordID path := by
    intro path
    unfold extractRecordID specRecordID
    rcases key path with heq | ⟨heq, htr⟩
    · rw [heq]
    · rw [heq, htr, splitChar_nil]
  refine ⟨hres, hrec, by decide, by decide, by decide, by decide, ?_⟩
  intro roles resolvedRole method path h
  unfold serveDecision
  rw [if_pos h]

/-- Witness for C8 at a concrete input: the bare path `/` has no
resource, so the middleware passes the request through. -/
theorem C8_witness :
    serveDecision [] "accountant" "GET" "/" = ServeOutcome.passThrough :=
  C8_path_convention.2.2.2.2.2.2 [] "accountant" "GET" "/" (by decide)

theorem decodePerms_isSome_iff (es : List JsonValue) :
    (decodePerms es).isSome = true ↔ ∀ e ∈ es, ruleObjShape e := by
  induction es with
  | nil => simp [decodePerms]
  | cons e es ih => cases e <;> simp [decodePerms, ih, ruleObjShape, Option.isSome_map']

theorem decodeRoles_isSome_iff (roles : List (String × JsonValue)) :
    (decodeRoles roles).isSome = true ↔ ∀ rv ∈ roles, roleValueShape rv.2 := by
  induction roles with
  | nil => simp [decodeRoles]
  | cons rv rest ih =>
    obtain ⟨name, v⟩ := rv
    cases v with
    | arr elems =>
      rw [List.forall_mem_cons]
      cases hdp : decodePerms elems with
      | none =>
        simp only [decodeRoles, hdp, Option.isSome_none, Bool.false_eq_true, false_iff]
        rintro ⟨hshape, -⟩
        rcases hshape with he | ⟨elems', he, hall⟩
        · exact absurd he (by simp)
        · injection he with he'
          subst he'
          have hsome := (decodePerms_isSome_iff elems).mpr hall
          rw [hdp] at hsome
          exact absurd hsome (by simp)
      | some objs =>
        have hperm : ∀ e ∈ elems, ruleObjShape e :=
          (decodePerms_isSome_iff elems).mp (by rw [hdp]; rfl)
        simp only [decodeRoles, hdp, Option.isSome_map']
        rw [ih]
        constructor
        · intro h
          exact ⟨Or.inr ⟨elems, rfl, hperm⟩, h⟩
        · rintro ⟨-, h⟩
          exact h
    | null => simp [decodeRoles, ih, roleValueShape, Option.isSome_map']
    | bool b => simp [decodeRoles, roleValueShape]
    | num n => simp [decodeRoles, roleValueShape]
    | str s => simp [decodeRoles, roleValueShape]
    | obj fields => simp [decodeRoles, roleValueShape]

/-- A single non-deny rule that matches grants access. -/
theorem single_allow_rule (p : Permission) (hty : p.type ≠ "deny")
    (action resource : String) (hm : matchTarget p resource action = true) :
    canAccessWithPermissions [p] action resource = true := by
  unfold canAccessWithPermissions
  rw [if_neg (by simp), if_neg (by simp [hty])]
  simp [hty, hm]

/-- C9: role-definition parsing fails exactly when the input cannot be
decoded into the map-of-role-name-to-list-of-rule-objects shape at all
(where `encoding/json` also accepts `null` for the map, for a role's
rule slice, and for a rule object); a missing or unrecognized type
yields a rule treated as allow during evaluation; a rule parsed from an
empty action list never matches a non-empty, non-wildcard action; a
configuration with an empty action list, a missing type, a missing
resource and a non-string action entry is accepted, as are the `null`
forms, while a non-object, non-null input is rejected. -/
theorem C9_parse_errors (j : JsonValue) :
    ((unmarshalRoleDefinitions j).isSome = true ↔ expectedShape j) ∧
    (∀ fields,
      (getString fields "type" = none ∨
        ∃ t, getString fields "type" = some t ∧ t ≠ "allow" ∧ t ≠ "deny") →
      ((parsePermission fields).type ≠ "deny" ∧
        ∀ action resource,
          matchTarget (parsePermission fields) resource action = true →
          canAccessWithPermissions [parsePermission fields] action resource = true)) ∧
    (∀ fields, fields.lookup "action" = some (JsonValue.arr []) →
      ((parsePermission fields).action = ⟨none, none⟩ ∧
        ∀ action resource, action ≠ "" → action ≠ "*" →
          matchTarget (parsePermission fields) resource action = false)) ∧
    (unmarshalRoleDefinitions (JsonValue.obj
      [("accountant", JsonValue.arr
        [JsonValue.obj [("action", JsonValue.arr [])],
          JsonValue.obj [("resource", JsonValue.str "posts")],
          JsonValue.obj [("type", JsonValue.str "custom"),
            ("action", JsonValue.arr [JsonValue.num 3]),
            ("resource", JsonValue.str "reports")]])])).isSome = true ∧
    (unmarshalRoleDefinitions JsonValue.null).isSome = true ∧
    (unmarshalRoleDefinitions
      (JsonValue.obj [("r", JsonValue.null)])).isSome = true ∧
    (unmarshalRoleDefinitions
      (JsonValue.obj [("r", JsonValue.arr [JsonValue.null])])).isSome = true ∧
    (unmarshalRoleDefinitions (JsonValue.str "nope")).isSome = false := by
  refine ⟨?_, ?_, ?_, rfl, rfl, rfl, rfl, rfl⟩
  · cases j with
    | obj roles =>
      unfold unmarshalRoleDefinitions decodeRaw expectedShape
      rw [Option.isSome_map']
      exact decodeRoles_isSome_iff roles
    | null => simp [unmarshalRoleDefinitions, decodeRaw, expectedShape]
    | bool b => simp [unmarshalRoleDefinitions, decodeRaw, expectedShape]
    | num n => simp [unmarshalRoleDefinitions, decodeRaw, expectedShape]
    | str s => simp [unmarshalRoleDefinitions, decodeRaw, expectedShape]
    | arr elems => simp [unmarshalRoleDefinitions, decodeRaw, expectedShape]
  · intro fields h
    have hty : (parsePermission fields).type ≠ "deny" := by
      unfold parsePermission
      rcases h with h | ⟨t, ht, -, htd⟩
      · rw [h]
        intro hcon
        have hcon2 : ("" : String) = "deny" := hcon
        exact absurd hcon2 (by decide)
      · rw [ht]
        exact htd
    exact ⟨hty, fun action resource hm => single_allow_rule _ hty action resource hm⟩
  · intro fields h
    have hact : (parsePermission fields).action = ⟨none, none⟩ := by
      unfold parsePermission parseActionField
      rw [h]
      simp
    refine ⟨hact, fun action resource h1 h2 => ?_⟩
    unfold matchTarget
    by_cases hres : matchWildcard (parsePermission fields).resource resource = true
    · rw [if_neg (by simp [hres]), if_neg (by simp [h1, h2]), hact]
    · rw [if_pos hres]

/-- Witness for C9 at a concrete input: the rule parsed from an empty
action list does not match the action "read". -/
theorem C9_witness :
    matchTarget (parsePermission [("action", JsonValue.arr [])]) "posts" "read" = false :=
  ((C9_parse_errors JsonValue.null).2.2.1 [("action", JsonValue.arr [])] rfl).2
    "read" "posts" (by decide) (by decide)

end Rbac
